import Mathlib

/-!
Verification development for the npm most-depended-packages scraper
(`src/index.js`).  JavaScript strings are modelled as `List Char`, machine
numbers as `Nat`/`Int`, promises as values of `Except` paired with a
completion latency, and the event-loop recursion of `promiseEach` as a
fuel-indexed function whose `none` result marks a run that never settles.
-/

/-- JavaScript strings, modelled as lists of characters. -/
abbrev JsStr := List Char

/-- Shorthand turning a Lean string literal into the `JsStr` model. -/
def jstr (s : String) : JsStr := s.toList

/-- Model of `s.startsWith(pat)` on the character-list representation:
`startsWithL pat s` is `true` when `pat` is an initial run of `s`. -/
def startsWithL : JsStr → JsStr → Bool
  | [], _ => true
  | _ :: _, [] => false
  | p :: ps, c :: cs => p = c && startsWithL ps cs

/-- Model of JavaScript `s.indexOf(c)`: the index of the first occurrence of
the character `c`, or `-1` when `c` does not occur. -/
def jsIndexOfAux (c : Char) : JsStr → Nat → Int
  | [], _ => -1
  | d :: rest, i => if d = c then (i : Int) else jsIndexOfAux c rest (i + 1)

/-- Model of JavaScript `s.indexOf(c)` starting from index 0. -/
def jsIndexOf (s : JsStr) (c : Char) : Int := jsIndexOfAux c s 0

/-- Model of `s.replace(/^pat/, repl)` for a literal pattern `pat`: when `s`
starts with `pat`, the leading occurrence is replaced by `repl`, otherwise `s`
is returned unchanged.  (The replacement strings arising in the source are
percent-encoded, so they never contain the `$` substitution patterns of
JavaScript `replace`.) -/
def jsReplaceAnchored (pat repl s : JsStr) : JsStr :=
  if startsWithL pat s then repl ++ s.drop pat.length else s

/-- Asynchronous call outcome: completion latency paired with either the
resolution value or the rejection error. -/
abbrev AsyncResult (ε β : Type) := Nat × Except ε β

/-- The rejection, among a list of already-started calls, that settles first:
minimal latency, ties broken towards the earlier index — `none` when every
call resolves. -/
def minRejection {ε β : Type} : List (AsyncResult ε β) → Option (Nat × ε)
  | [] => none
  | (lat, Except.error e) :: rest =>
    match minRejection rest with
    | none => some (lat, e)
    | some (lat', e') => if lat' < lat then some (lat', e') else some (lat, e)
  | (_, Except.ok _) :: rest => minRejection rest

/-- The resolution values of a list of calls, in call order. -/
def allValues {ε β : Type} (calls : List (AsyncResult ε β)) : List β :=
  calls.filterMap fun c =>
    match c.2 with
    | Except.ok b => some b
    | Except.error _ => none

/-- Model of `Promise.all`: rejects with the first rejection to settle when
one exists, otherwise resolves with every value in call (index) order. -/
def promiseAll {ε β : Type} (calls : List (AsyncResult ε β)) : Except ε (List β) :=
  match minRejection calls with
  | some (_, e) => Except.error e
  | none => Except.ok (allValues calls)

/-- Everything observable about one `promiseEach` run: how it settled
(`none` when it never settles), which inputs `func` was applied to, in
order, and what remains of the caller-supplied (spliced) input array when
the run settles. -/
structure RunOutcome (α ε β : Type) where
  result : Option (Except ε (List β))
  invoked : List α
  remaining : List α

/-- Model of `promiseEach` (src/index.js lines 35-69) after the default for
a missing `maxConcurrent` has been applied.  One step splices
`maxConcurrent` arguments off the head of the array (`splice` clamps a
negative count to zero and an oversized count to the length), starts `func`
on each, joins them with `Promise.all`, flattens the chunk's results, and
recurses on the remainder unless it is empty.  `fuel` bounds the recursion
depth so the model stays total; `none` records that the run did not settle
within `fuel` steps. -/
def promiseEachAux {α ε β : Type} (func : α → AsyncResult ε (List β)) (m : Int) :
    Nat → List α → RunOutcome α ε β
  | 0, parameters => ⟨none, [], parameters⟩
  | fuel + 1, parameters =>
    let params := parameters.take m.toNat
    let rest := parameters.drop m.toNat
    match promiseAll (params.map func) with
    | Except.error e => ⟨some (Except.error e), params, rest⟩
    | Except.ok results =>
      let flatResults := results.flatten
      if rest.isEmpty then ⟨some (Except.ok flatResults), params, rest⟩
      else
        let tail := promiseEachAux func m fuel rest
        match tail.result with
        | none => ⟨none, params ++ tail.invoked, tail.remaining⟩
        | some (Except.error e) => ⟨some (Except.error e), params ++ tail.invoked, tail.remaining⟩
        | some (Except.ok otherResults) =>
          ⟨some (Except.ok (flatResults ++ otherResults)), params ++ tail.invoked, tail.remaining⟩

/-- The `if(!maxConcurrent) maxConcurrent = 1` default of `promiseEach`:
an absent argument (`none`) and the falsy number `0` become `1`; every
other number, negative ones included, is kept. -/
def effectiveMaxConcurrent : Option Int → Int
  | none => 1
  | some v => if v = 0 then 1 else v

/-- A complete `promiseEach` run.  For any effective `maxConcurrent ≥ 1`
each step consumes at least one input, so `parameters.length + 1` steps of
fuel always suffice for the run to settle; `result = none` therefore marks
genuine divergence. -/
def promiseEachRun {α ε β : Type} (parameters : List α) (func : α → AsyncResult ε (List β))
    (maxConcurrent : Option Int) : RunOutcome α ε β :=
  promiseEachAux func (effectiveMaxConcurrent maxConcurrent) (parameters.length + 1) parameters

/-- Argument accepted by `https.get`: either an options object with
`hostname` and `path` fields (as built in `scrapeMostDepended`) or a plain
URL string (as passed in `downloadAndExtractPackage`). -/
inductive GetArg where
  | opts (hostname : JsStr) (path : JsStr)
  | url (address : JsStr)

/-- The JavaScript property access `options.hostname`: defined on an options
object, `undefined` (modelled `none`) on a plain string. -/
def GetArg.hostnameProp : GetArg → Option JsStr
  | GetArg.opts h _ => some h
  | GetArg.url _ => none

/-- The JavaScript property access `options.path`: defined on an options
object, `undefined` (modelled `none`) on a plain string. -/
def GetArg.pathProp : GetArg → Option JsStr
  | GetArg.opts _ p => some p
  | GetArg.url _ => none

/-- How a template literal renders an optional value: `undefined` prints as
the literal text `undefined`. -/
def jsTemplate : Option JsStr → JsStr
  | none => jstr "undefined"
  | some s => s

/-- Model of `httpsGetAsync` (src/index.js lines 11-22), evaluated against
the HTTP status code of the response: a non-200 status rejects with the
message built from `options.hostname` and `options.path`, a 200 status
resolves. -/
def httpsGetAsync (options : GetArg) (statusCode : Nat) : Except JsStr Unit :=
  if statusCode ≠ 200 then
    Except.error (jstr "GET " ++ jsTemplate options.hostnameProp ++ jsTemplate options.pathProp ++
      jstr " returned " ++ (Nat.repr statusCode).toList)
  else Except.ok ()

/-- The options object built by `scrapeMostDepended` for a page offset. -/
def scrapeOptions (offset : Nat) : GetArg :=
  GetArg.opts (jstr "www.npmjs.com") (jstr "/browse/depended?offset=" ++ (Nat.repr offset).toList)

/-- Model of ECMAScript `encodeURIComponent`: alphanumeric characters and
`- _ . ! ~ * ' ( )` pass through unchanged. -/
def isUriUnescaped (c : Char) : Bool :=
  (('A' ≤ c && c ≤ 'Z') || ('a' ≤ c && c ≤ 'z') || ('0' ≤ c && c ≤ '9')) ||
    (jstr "-_.!~*()" ++ [Char.ofNat 39]).contains c

/-- Uppercase hexadecimal digit for a value below 16. -/
def hexUpper (n : Nat) : Char :=
  if n < 10 then Char.ofNat (48 + n) else Char.ofNat (55 + n)

/-- UTF-8 byte sequence of one Unicode scalar value. -/
def utf8Bytes (c : Char) : List Nat :=
  let n := c.toNat
  if n < 128 then [n]
  else if n < 2048 then [192 + n / 64, 128 + n % 64]
  else if n < 65536 then [224 + n / 4096, 128 + n / 64 % 64, 128 + n % 64]
  else [240 + n / 262144, 128 + n / 4096 % 64, 128 + n / 64 % 64, 128 + n % 64]

/-- Percent-escape of one byte, with uppercase hexadecimal digits. -/
def percentByte (b : Nat) : JsStr := ['%', hexUpper (b / 16), hexUpper (b % 16)]

/-- Model of `encodeURIComponent`: every character outside the unescaped set
is replaced by the percent-escapes of its UTF-8 bytes. -/
def encodeURIComponent (s : JsStr) : JsStr :=
  s.flatMap fun c => if isUriUnescaped c then [c] else (utf8Bytes c).flatMap percentByte

/-- URL resolved by `downloadAndExtractPackage` (src/index.js lines 122-140):
for a name starting with `@`, `org` is `pkg.slice(0, pkg.indexOf('/') + 1)`
and `name` is the remainder; otherwise `org` is empty and `name` is `pkg`;
the URL is the registry host followed by org, name, a dash path segment,
and then name-version.tgz. -/
def downloadAndExtractUrl (pkg version : JsStr) : JsStr :=
  let isScoped := startsWithL (jstr "@") pkg
  let index : Int := jsIndexOf pkg '/' + 1
  let org := if isScoped then pkg.take index.toNat else jstr ""
  let name := if isScoped then pkg.drop index.toNat else pkg
  jstr "https://registry.npmjs.org/" ++ org ++ name ++ jstr "/-/" ++ name ++ jstr "-" ++
    version ++ jstr ".tgz"

/-- The archive fetch issued by `downloadAndExtractPackage`: `httpsGetAsync`
is called with the URL as a plain string, not with an options object. -/
def archiveFetch (pkg version : JsStr) (statusCode : Nat) : Except JsStr Unit :=
  httpsGetAsync (GetArg.url (downloadAndExtractUrl pkg version)) statusCode

/-- The `tar.extract` entry-name map of `downloadAndExtractPackage`
(src/index.js line 157): `header.name.replace(/^package/, folderName)`. -/
def tarMapName (folderName entryName : JsStr) : JsStr :=
  jsReplaceAnchored (jstr "package") folderName entryName

/-- Name under the `./packages` extraction root at which an archive entry of
the package `pkg` is written: the leading literal `package` of the entry
name, when present, is replaced by `encodeURIComponent(pkg)`. -/
def entryDest (pkg entryName : JsStr) : JsStr :=
  tarMapName (encodeURIComponent pkg) entryName

/-- The offset-generating loop of `downloadPackages` (src/index.js lines
171-174): `for(let i = 0; i < count; i += 36) offsets.push(i)`.  The loop
counter grows by 36 while it stays below `count`, so the loop runs at most
`count` passes; the structural `fuel` argument carries that bound. -/
def offsetsLoop (count : Nat) : Nat → Nat → List Nat
  | 0, _ => []
  | fuel + 1, i => if i < count then i :: offsetsLoop count fuel (i + 36) else []

/-- The page offsets generated by `downloadPackages` for a requested count. -/
def pageOffsets (count : Nat) : List Nat := offsetsLoop count count 0

/-- A package as scraped from a listing page: (name, version). -/
abbrev PackageRef := JsStr × JsStr

/-- Everything observable about one `downloadPackages` run: the outcome of
the listing stage, the list handed to the extraction-stage `promiseEach`
(when that point is reached), and the value passed to the callback
(`none` when the run never settles; `some none` is success, `some (some e)`
failure). -/
structure PipelineOutcome (ε γ : Type) where
  listingResult : Option (Except ε (List PackageRef))
  stage2Input : Option (List PackageRef)
  callback : Option (Option ε)

/-- Model of `downloadPackages` (src/index.js lines 170-183), parameterised
by the behaviour of the two collaborators: `scrape` is `scrapeMostDepended`
on one offset and `dl` is `downloadAndExtractPackage` on one (name, version)
pair.  The listing stage runs `promiseEach` over the page offsets with
concurrency 3, the result is truncated with `splice(0, count)` (the first
`count` entries), and the extraction stage runs `promiseEach` over the
truncated list with concurrency 3. -/
def downloadPackages {ε γ : Type} (count : Nat) (scrape : Nat → AsyncResult ε (List PackageRef))
    (dl : PackageRef → AsyncResult ε (List γ)) : PipelineOutcome ε γ :=
  let offsets := pageOffsets count
  let stage1 := promiseEachRun offsets scrape (some 3)
  match stage1.result with
  | none => ⟨none, none, none⟩
  | some (Except.error e) => ⟨some (Except.error e), none, some (some e)⟩
  | some (Except.ok mostDepended) =>
    let toBeDownloaded := mostDepended.take count
    let stage2 := promiseEachRun toBeDownloaded dl (some 3)
    match stage2.result with
    | none => ⟨some (Except.ok mostDepended), some toBeDownloaded, none⟩
    | some (Except.error e) => ⟨some (Except.ok mostDepended), some toBeDownloaded, some (some e)⟩
    | some (Except.ok _) => ⟨some (Except.ok mostDepended), some toBeDownloaded, some none⟩

/-- Timing model of a `promiseEach` run in which every call resolves: the
calls of one chunk all become pending at the instant the chunk starts,
each stays pending for its own latency, the chunk's `Promise.all` settles
when its slowest call settles, and only then does the recursion start the
next chunk.  Each list element is the list of (start, finish) intervals of
one chunk; `fuel` bounds the recursion as in `promiseEachAux`. -/
def chunkSpansAux {α : Type} (lat : α → Nat) (m : Nat) :
    Nat → List α → Nat → List (List (Nat × Nat))
  | 0, _, _ => []
  | fuel + 1, ps, t =>
    if ps.isEmpty then []
    else
      let chunk := ps.take m
      let dur := (chunk.map lat).foldr Nat.max 0
      chunk.map (fun a => (t, t + lat a)) :: chunkSpansAux lat m fuel (ps.drop m) (t + dur)

/-- The per-chunk (start, finish) intervals of a full `promiseEach` run with
effective concurrency `m`, the first chunk starting at instant `t`. -/
def chunkSpans {α : Type} (lat : α → Nat) (m : Nat) (ps : List α) (t : Nat) :
    List (List (Nat × Nat)) :=
  chunkSpansAux lat m ps.length ps t

/-- Number of calls pending at instant `t`: started no later than `t` and
not yet finished. -/
def countPending (spans : List (Nat × Nat)) (t : Nat) : Nat :=
  spans.countP fun s => decide (s.1 ≤ t ∧ t < s.2)

/-- Chunk `c` settles entirely before chunk `d` starts. -/
def spansSequenced (c d : List (Nat × Nat)) : Prop :=
  ∀ p ∈ c, ∀ q ∈ d, p.2 ≤ q.1

/-- Concrete transform used to exercise the error path: input 3 rejects
with error 300 after latency 5, every other input resolves. -/
def sampleFailFunc : Nat → AsyncResult Nat (List Nat) := fun n =>
  if n = 3 then (5, Except.error 300) else (0, Except.ok [n])

/-- Concrete listing-stage behaviour: every page offset yields the same two
(name, version) pairs. -/
def sampleScrape : Nat → AsyncResult Nat (List PackageRef) := fun _ =>
  (0, Except.ok [(jstr "a", jstr "1"), (jstr "b", jstr "2")])

/-- Concrete extraction-stage behaviour: every package resolves at once. -/
def sampleDl : PackageRef → AsyncResult Nat (List Unit) := fun _ => (0, Except.ok [])

theorem minRejection_map_ok {α ε β : Type} (lat : α → Nat) (g : α → List β) (ps : List α) :
    minRejection (ps.map fun a => ((lat a, Except.ok (g a)) : AsyncResult ε (List β))) = none := by
  induction ps with
  | nil => rfl
  | cons a ps ih => simpa [minRejection] using ih

theorem allValues_map_ok {α ε β : Type} (lat : α → Nat) (g : α → List β) (ps : List α) :
    allValues (ps.map fun a => ((lat a, Except.ok (g a)) : AsyncResult ε (List β))) = ps.map g := by
  induction ps with
  | nil => rfl
  | cons a ps ih => simpa [allValues] using ih

theorem promiseAll_map_ok {α ε β : Type} (lat : α → Nat) (g : α → List β) (ps : List α) :
    promiseAll (ps.map fun a => ((lat a, Except.ok (g a)) : AsyncResult ε (List β))) =
      Except.ok (ps.map g) := by
  simp [promiseAll, minRejection_map_ok, allValues_map_ok]

theorem minRejection_mem {ε β : Type} :
    ∀ (calls : List (AsyncResult ε β)) (t : Nat) (e : ε),
      minRejection calls = some (t, e) → (t, Except.error e) ∈ calls := by
  intro calls
  induction calls with
  | nil => intro t e h; simp [minRejection] at h
  | cons c rest ih =>
    intro t e h
    obtain ⟨lat, r⟩ := c
    cases r with
    | ok b =>
      simp only [minRejection] at h
      exact List.mem_cons_of_mem _ (ih _ _ h)
    | error e0 =>
      simp only [minRejection] at h
      cases hm : minRejection rest with
      | none =>
        rw [hm] at h
        simp only [Option.some.injEq, Prod.mk.injEq] at h
        rw [← h.1, ← h.2]
        exact List.mem_cons_self _ _
      | some pr =>
        obtain ⟨lat', e'⟩ := pr
        rw [hm] at h
        dsimp only at h
        by_cases hlt : lat' < lat
        · rw [if_pos hlt] at h
          simp only [Option.some.injEq, Prod.mk.injEq] at h
          rw [← h.1, ← h.2]
          exact List.mem_cons_of_mem _ (ih _ _ hm)
        · rw [if_neg hlt] at h
          simp only [Option.some.injEq, Prod.mk.injEq] at h
          rw [← h.1, ← h.2]
          exact List.mem_cons_self _ _

theorem minRejection_eq_none {ε β : Type} :
    ∀ (calls : List (AsyncResult ε β)), minRejection calls = none →
      ∀ c ∈ calls, ∀ e, c.2 ≠ Except.error e := by
  intro calls
  induction calls with
  | nil => intro _ c hc; simp at hc
  | cons c rest ih =>
    intro h d hd e
    obtain ⟨lat, r⟩ := c
    cases r with
    | ok b =>
      simp only [minRejection] at h
      rcases List.mem_cons.mp hd with hd | hd
      · rw [hd]; simp
      · exact ih h d hd e
    | error e0 =>
      exfalso
      simp only [minRejection] at h
      cases hm : minRejection rest with
      | none => rw [hm] at h; simp at h
      | some pr =>
        obtain ⟨lat', e'⟩ := pr
        rw [hm] at h
        dsimp only at h
        by_cases hlt : lat' < lat
        · rw [if_pos hlt] at h; simp at h
        · rw [if_neg hlt] at h; simp at h

theorem promiseAll_error_mem {α ε β : Type} (func : α → AsyncResult ε (List β)) (chunk : List α)
    (e : ε) (h : promiseAll (chunk.map func) = Except.error e) :
    ∃ a ∈ chunk, (func a).2 = Except.error e := by
  unfold promiseAll at h
  cases hm : minRejection (chunk.map func) with
  | none => rw [hm] at h; simp at h
  | some pr =>
    obtain ⟨t, e0⟩ := pr
    rw [hm] at h
    simp only [Except.error.injEq] at h
    have hmem := minRejection_mem _ _ _ hm
    obtain ⟨a, ha, hfa⟩ := List.mem_map.mp hmem
    refine ⟨a, ha, ?_⟩
    rw [hfa, h]

theorem promiseAll_ok_forall {α ε β : Type} (func : α → AsyncResult ε (List β)) (chunk : List α)
    (results : List (List β)) (h : promiseAll (chunk.map func) = Except.ok results) :
    ∀ a ∈ chunk, ∀ e, (func a).2 ≠ Except.error e := by
  unfold promiseAll at h
  cases hm : minRejection (chunk.map func) with
  | some pr => obtain ⟨t, e0⟩ := pr; rw [hm] at h; simp at h
  | none =>
    intro a ha e
    exact minRejection_eq_none _ hm (func a) (List.mem_map_of_mem _ ha) e

theorem promiseEachAux_allOk {α ε β : Type} (lat : α → Nat) (g : α → List β) (m : Int)
    (hm : 1 ≤ m) :
    ∀ (fuel : Nat) (ps : List α), ps.length < fuel →
      promiseEachAux (fun a => ((lat a, Except.ok (g a)) : AsyncResult ε (List β))) m fuel ps =
        ⟨some (Except.ok (ps.flatMap g)), ps, []⟩ := by
  intro fuel
  induction fuel with
  | zero => intro ps h; exact absurd h (Nat.not_lt_zero _)
  | succ fuel ih =>
    intro ps hlen
    have hmn : 1 ≤ m.toNat := by omega
    by_cases hrest : ps.drop m.toNat = []
    · have hchunk : ps.take m.toNat = ps :=
        List.take_of_length_le (List.drop_eq_nil_iff.mp hrest)
      simp [promiseEachAux, promiseAll_map_ok, hrest, hchunk, List.flatMap_def]
    · have hlt : (ps.drop m.toNat).length < fuel := by
        have h1 : ¬ps.length ≤ m.toNat := fun hle => hrest (List.drop_eq_nil_iff.mpr hle)
        simp only [List.length_drop]
        omega
      have hne : (ps.drop m.toNat).isEmpty = false := by
        simp [List.isEmpty_iff, hrest]
      have ihr := ih (ps.drop m.toNat) hlt
      simp only [promiseEachAux, promiseAll_map_ok, hne, Bool.false_eq_true, if_false, ihr]
      simp only [RunOutcome.mk.injEq]
      refine ⟨?_, List.take_append_drop _ _, True.intro⟩
      rw [← List.flatMap_def, ← List.flatMap_append, List.take_append_drop]

/-- C1: for every `maxConcurrent ≥ 1`, every finite input sequence, every
per-element result function `g`, and every completion-latency assignment
`lat` (so regardless of per-call completion order), the `promiseEach` run
resolves with the concatenation, in input order, of the sequences `g`
yields on each input: per-chunk results are flattened and concatenated
across chunks in chunk order. -/
theorem claim_C1_order_preserved {α ε β : Type} (m : Int) (hm : 1 ≤ m) (params : List α)
    (lat : α → Nat) (g : α → List β) :
    (promiseEachRun params (fun a => ((lat a, Except.ok (g a)) : AsyncResult ε (List β)))
        (some m)).result = some (Except.ok (params.flatMap g)) := by
  have hmeff : effectiveMaxConcurrent (some m) = m := by
    simp only [effectiveMaxConcurrent]
    rw [if_neg (by omega)]
  rw [promiseEachRun, hmeff, promiseEachAux_allOk lat g m hm _ params (Nat.lt_succ_self _)]

/-- Witness for C1: three inputs, concurrency 2, latencies that make the
second call of each chunk finish first. -/
theorem claim_C1_order_preserved_witness :
    (1 : Int) ≤ 2 ∧
      (promiseEachRun [1, 2, 3]
          (fun n => ((4 - n, Except.ok [n, n + 10]) : AsyncResult Nat (List Nat)))
          (some 2)).result = some (Except.ok ([1, 2, 3].flatMap fun n => [n, n + 10])) :=
  ⟨by norm_num, claim_C1_order_preserved 2 (by norm_num) [1, 2, 3] (fun n => 4 - n)
    (fun n => [n, n + 10])⟩


theorem promiseEachAux_step_error {α ε β : Type} (func : α → AsyncResult ε (List β)) (m : Int)
    (fuel : Nat) (ps : List α) (e : ε)
    (hall : promiseAll ((ps.take m.toNat).map func) = Except.error e) :
    promiseEachAux func m (fuel + 1) ps =
      ⟨some (Except.error e), ps.take m.toNat, ps.drop m.toNat⟩ := by
  simp only [promiseEachAux, hall]

theorem promiseEachAux_step_nil {α ε β : Type} (func : α → AsyncResult ε (List β)) (m : Int)
    (fuel : Nat) (ps : List α) (results : List (List β))
    (hall : promiseAll ((ps.take m.toNat).map func) = Except.ok results)
    (hnil : ps.drop m.toNat = []) :
    promiseEachAux func m (fuel + 1) ps =
      ⟨some (Except.ok results.flatten), ps.take m.toNat, []⟩ := by
  simp only [promiseEachAux, hall, hnil, List.isEmpty_nil, eq_self_iff_true, if_true]

theorem promiseEachAux_step_cons_none {α ε β : Type} (func : α → AsyncResult ε (List β))
    (m : Int) (fuel : Nat) (ps : List α) (results : List (List β))
    (hall : promiseAll ((ps.take m.toNat).map func) = Except.ok results)
    (hne : (ps.drop m.toNat).isEmpty = false)
    (hres : (promiseEachAux func m fuel (ps.drop m.toNat)).result = none) :
    promiseEachAux func m (fuel + 1) ps =
      ⟨none, ps.take m.toNat ++ (promiseEachAux func m fuel (ps.drop m.toNat)).invoked,
        (promiseEachAux func m fuel (ps.drop m.toNat)).remaining⟩ := by
  simp only [promiseEachAux, hall, hne, Bool.false_eq_true, if_false, hres]

theorem promiseEachAux_step_cons_error {α ε β : Type} (func : α → AsyncResult ε (List β))
    (m : Int) (fuel : Nat) (ps : List α) (results : List (List β)) (e : ε)
    (hall : promiseAll ((ps.take m.toNat).map func) = Except.ok results)
    (hne : (ps.drop m.toNat).isEmpty = false)
    (hres : (promiseEachAux func m fuel (ps.drop m.toNat)).result = some (Except.error e)) :
    promiseEachAux func m (fuel + 1) ps =
      ⟨some (Except.error e),
        ps.take m.toNat ++ (promiseEachAux func m fuel (ps.drop m.toNat)).invoked,
        (promiseEachAux func m fuel (ps.drop m.toNat)).remaining⟩ := by
  simp only [promiseEachAux, hall, hne, Bool.false_eq_true, if_false, hres]

theorem promiseEachAux_step_cons_ok {α ε β : Type} (func : α → AsyncResult ε (List β))
    (m : Int) (fuel : Nat) (ps : List α) (results : List (List β)) (rs : List β)
    (hall : promiseAll ((ps.take m.toNat).map func) = Except.ok results)
    (hne : (ps.drop m.toNat).isEmpty = false)
    (hres : (promiseEachAux func m fuel (ps.drop m.toNat)).result = some (Except.ok rs)) :
    promiseEachAux func m (fuel + 1) ps =
      ⟨some (Except.ok (results.flatten ++ rs)),
        ps.take m.toNat ++ (promiseEachAux func m fuel (ps.drop m.toNat)).invoked,
        (promiseEachAux func m fuel (ps.drop m.toNat)).remaining⟩ := by
  simp only [promiseEachAux, hall, hne, Bool.false_eq_true, if_false, hres]

theorem promiseEachAux_firstError {α ε β : Type} (func : α → AsyncResult ε (List β)) (m : Int)
    (hm : 1 ≤ m) :
    ∀ (fuel : Nat) (ps : List α), ps.length < fuel →
      (∃ a ∈ ps, ∃ e, (func a).2 = Except.error e) →
      ∃ j e,
        (promiseEachAux func m fuel ps).result = some (Except.error e) ∧
        (∃ a ∈ (ps.drop (j * m.toNat)).take m.toNat, (func a).2 = Except.error e) ∧
        (∀ a ∈ ps.take (j * m.toNat), ∀ e', (func a).2 ≠ Except.error e') ∧
        (promiseEachAux func m fuel ps).invoked = ps.take ((j + 1) * m.toNat) := by
  intro fuel
  induction fuel with
  | zero => intro ps h _; exact absurd h (Nat.not_lt_zero _)
  | succ fuel ih =>
    intro ps hlen hex
    have hmn : 1 ≤ m.toNat := by omega
    cases hall : promiseAll ((ps.take m.toNat).map func) with
    | error e =>
      refine ⟨0, e, ?_, ?_, ?_, ?_⟩
      · rw [promiseEachAux_step_error func m fuel ps e hall]
      · simpa using promiseAll_error_mem func _ e hall
      · simp
      · rw [promiseEachAux_step_error func m fuel ps e hall]
        norm_num
    | ok results =>
      have hchunkok := promiseAll_ok_forall func _ results hall
      obtain ⟨a0, ha0, e0, he0⟩ := hex
      have ha0split : a0 ∈ ps.take m.toNat ++ ps.drop m.toNat := by
        rw [List.take_append_drop]; exact ha0
      have ha0rest : a0 ∈ ps.drop m.toNat := by
        rcases List.mem_append.mp ha0split with h | h
        · exact absurd he0 (hchunkok a0 h e0)
        · exact h
      have hrestne : ps.drop m.toNat ≠ [] := by
        intro hnil; rw [hnil] at ha0rest; simp at ha0rest
      have hne : (ps.drop m.toNat).isEmpty = false := by simp [List.isEmpty_iff, hrestne]
      have hlt : (ps.drop m.toNat).length < fuel := by
        have h1 : ¬ps.length ≤ m.toNat := fun hle => hrestne (List.drop_eq_nil_iff.mpr hle)
        simp only [List.length_drop]; omega
      obtain ⟨j', e, hres, hfail, hearlier, hinv⟩ :=
        ih (ps.drop m.toNat) hlt ⟨a0, ha0rest, e0, he0⟩
      refine ⟨j' + 1, e, ?_, ?_, ?_, ?_⟩
      · rw [promiseEachAux_step_cons_error func m fuel ps results e hall hne hres]
      · rw [List.drop_drop] at hfail
        rw [show (j' + 1) * m.toNat = m.toNat + j' * m.toNat by ring]
        exact hfail
      · rw [Nat.succ_mul, Nat.add_comm (j' * m.toNat) m.toNat, List.take_add]
        intro a ha e'
        rcases List.mem_append.mp ha with h | h
        · exact hchunkok a h e'
        · exact hearlier a h e'
      · rw [promiseEachAux_step_cons_error func m fuel ps results e hall hne hres]
        dsimp only
        rw [hinv, show (j' + 1 + 1) * m.toNat = m.toNat + (j' + 1) * m.toNat by ring,
          List.take_add]

/-- C3: with any `maxConcurrent ≥ 1`, if some transform invocation rejects,
the whole run rejects with an error that originates from a rejecting call
of the first failing chunk, every call of the earlier chunks resolves,
`func` is invoked exactly on the chunks up to and including the failing one
(so no later chunk is started), and the already-computed results of the
prior chunks are discarded rather than returned partially. -/
theorem claim_C3_fail_fast {α ε β : Type} (m : Int) (hm : 1 ≤ m) (params : List α)
    (func : α → AsyncResult ε (List β))
    (h : ∃ a ∈ params, ∃ e, (func a).2 = Except.error e) :
    ∃ j e,
      (promiseEachRun params func (some m)).result = some (Except.error e) ∧
      (∃ a ∈ (params.drop (j * m.toNat)).take m.toNat, (func a).2 = Except.error e) ∧
      (∀ a ∈ params.take (j * m.toNat), ∀ e', (func a).2 ≠ Except.error e') ∧
      (promiseEachRun params func (some m)).invoked = params.take ((j + 1) * m.toNat) := by
  have hmeff : effectiveMaxConcurrent (some m) = m := by
    simp only [effectiveMaxConcurrent]; rw [if_neg (by omega)]
  simp only [promiseEachRun, hmeff]
  exact promiseEachAux_firstError func m hm _ params (Nat.lt_succ_self _) h

/-- Witness for C3: five inputs, concurrency 2, the third input rejects, so
the second chunk fails and the fifth input is never invoked. -/
theorem claim_C3_fail_fast_witness :
    (1 : Int) ≤ 2 ∧
      (∃ a ∈ [1, 2, 3, 4, 5], ∃ e, (sampleFailFunc a).2 = Except.error e) ∧
      ∃ j e,
        (promiseEachRun [1, 2, 3, 4, 5] sampleFailFunc (some 2)).result =
            some (Except.error e) ∧
        (∃ a ∈ ([1, 2, 3, 4, 5].drop (j * (2 : Int).toNat)).take (2 : Int).toNat,
            (sampleFailFunc a).2 = Except.error e) ∧
        (∀ a ∈ [1, 2, 3, 4, 5].take (j * (2 : Int).toNat), ∀ e',
            (sampleFailFunc a).2 ≠ Except.error e') ∧
        (promiseEachRun [1, 2, 3, 4, 5] sampleFailFunc (some 2)).invoked =
            [1, 2, 3, 4, 5].take ((j + 1) * (2 : Int).toNat) :=
  ⟨by norm_num, ⟨3, by norm_num, 300, rfl⟩,
    claim_C3_fail_fast 2 (by norm_num) [1, 2, 3, 4, 5] sampleFailFunc
      ⟨3, by norm_num, 300, rfl⟩⟩

theorem promiseEachAux_isSome {α ε β : Type} (func : α → AsyncResult ε (List β)) (m : Int)
    (hm : 1 ≤ m) :
    ∀ (fuel : Nat) (ps : List α), ps.length < fuel →
      ((promiseEachAux func m fuel ps).result).isSome = true := by
  intro fuel
  induction fuel with
  | zero => intro ps h; exact absurd h (Nat.not_lt_zero _)
  | succ fuel ih =>
    intro ps hlen
    have hmn : 1 ≤ m.toNat := by omega
    cases hall : promiseAll ((ps.take m.toNat).map func) with
    | error e => rw [promiseEachAux_step_error func m fuel ps e hall]; rfl
    | ok results =>
      by_cases hrest : ps.drop m.toNat = []
      · rw [promiseEachAux_step_nil func m fuel ps results hall hrest]; rfl
      · have hne : (ps.drop m.toNat).isEmpty = false := by simp [List.isEmpty_iff, hrest]
        have hlt : (ps.drop m.toNat).length < fuel := by
          have h1 : ¬ps.length ≤ m.toNat := fun hle => hrest (List.drop_eq_nil_iff.mpr hle)
          simp only [List.length_drop]; omega
        have htail := ih (ps.drop m.toNat) hlt
        cases hres : (promiseEachAux func m fuel (ps.drop m.toNat)).result with
        | none => rw [hres] at htail; simp at htail
        | some r =>
          cases r with
          | error e =>
            rw [promiseEachAux_step_cons_error func m fuel ps results e hall hne hres]; rfl
          | ok rs =>
            rw [promiseEachAux_step_cons_ok func m fuel ps results rs hall hne hres]; rfl

theorem promiseEachAux_ok_remaining {α ε β : Type} (func : α → AsyncResult ε (List β))
    (m : Int) :
    ∀ (fuel : Nat) (ps : List α) (r : List β),
      (promiseEachAux func m fuel ps).result = some (Except.ok r) →
      (promiseEachAux func m fuel ps).remaining = [] := by
  intro fuel
  induction fuel with
  | zero => intro ps r h; simp [promiseEachAux] at h
  | succ fuel ih =>
    intro ps r h
    cases hall : promiseAll ((ps.take m.toNat).map func) with
    | error e => rw [promiseEachAux_step_error func m fuel ps e hall] at h; simp at h
    | ok results =>
      by_cases hrest : ps.drop m.toNat = []
      · rw [promiseEachAux_step_nil func m fuel ps results hall hrest]
      · have hne : (ps.drop m.toNat).isEmpty = false := by simp [List.isEmpty_iff, hrest]
        cases hres : (promiseEachAux func m fuel (ps.drop m.toNat)).result with
        | none => rw [promiseEachAux_step_cons_none func m fuel ps results hall hne hres] at h
                  simp at h
        | some r' =>
          cases r' with
          | error e =>
            rw [promiseEachAux_step_cons_error func m fuel ps results e hall hne hres] at h
            simp at h
          | ok rs =>
            rw [promiseEachAux_step_cons_ok func m fuel ps results rs hall hne hres]
            exact ih (ps.drop m.toNat) rs hres

/-- C10: for every finite input list and every `maxConcurrent ≥ 1`, the
`promiseEach` recursion settles (each step splices at least one element off
the head of the input array), and on resolution the caller-supplied input
array has been emptied. -/
theorem claim_C10_terminates {α ε β : Type} (m : Int) (hm : 1 ≤ m) (params : List α)
    (func : α → AsyncResult ε (List β)) :
    ((promiseEachRun params func (some m)).result).isSome = true ∧
      ∀ r, (promiseEachRun params func (some m)).result = some (Except.ok r) →
        (promiseEachRun params func (some m)).remaining = [] := by
  have hmeff : effectiveMaxConcurrent (some m) = m := by
    simp only [effectiveMaxConcurrent]; rw [if_neg (by omega)]
  simp only [promiseEachRun, hmeff]
  exact ⟨promiseEachAux_isSome func m hm _ params (Nat.lt_succ_self _),
    fun r => promiseEachAux_ok_remaining func m _ params r⟩

/-- Witness for C10: a singleton run with `maxConcurrent = 1` settles and
leaves the spliced input array empty. -/
theorem claim_C10_terminates_witness :
    ((promiseEachRun [7] (fun n => ((0 : Nat), (Except.ok [n] : Except Nat (List Nat))))
          (some 1)).result).isSome = true ∧
      (promiseEachRun [7] (fun n => ((0 : Nat), (Except.ok [n] : Except Nat (List Nat))))
          (some 1)).remaining = [] :=
  ⟨(claim_C10_terminates 1 (by norm_num) [7]
      (fun n => ((0 : Nat), (Except.ok [n] : Except Nat (List Nat))))).1,
    (claim_C10_terminates 1 (by norm_num) [7]
      (fun n => ((0 : Nat), (Except.ok [n] : Except Nat (List Nat))))).2 [7] rfl⟩

theorem promiseEachAux_neg_diverges {α ε β : Type} (func : α → AsyncResult ε (List β))
    (m : Int) (hneg : m < 0) :
    ∀ (fuel : Nat) (ps : List α), ps ≠ [] → (promiseEachAux func m fuel ps).result = none := by
  intro fuel
  induction fuel with
  | zero => intro ps _; rfl
  | succ fuel ih =>
    intro ps hps
    have hmn : m.toNat = 0 := Int.toNat_of_nonpos (le_of_lt hneg)
    have hall : promiseAll ((ps.take m.toNat).map func) = Except.ok [] := by
      rw [hmn, List.take_zero]; rfl
    have hne : (ps.drop m.toNat).isEmpty = false := by
      rw [hmn, List.drop_zero]; simp [List.isEmpty_iff, hps]
    have hres : (promiseEachAux func m fuel (ps.drop m.toNat)).result = none := by
      rw [hmn, List.drop_zero]; exact ih ps hps
    rw [promiseEachAux_step_cons_none func m fuel ps [] hall hne hres]

/-- C8 (counterexample): with the one-element input `[1]` and an
always-resolving transform, `maxConcurrent = -1` does not behave like
`maxConcurrent = 1`: the former run never settles while the latter
resolves with `[1]`. -/
theorem claim_C8_counterexample :
    (promiseEachRun [1] (fun n => ((0 : Nat), (Except.ok [n] : Except Nat (List Nat))))
          (some (-1))).result ≠
      (promiseEachRun [1] (fun n => ((0 : Nat), (Except.ok [n] : Except Nat (List Nat))))
          (some 1)).result := by
  intro hcontra
  have h1 : (promiseEachRun [1] (fun n => ((0 : Nat), (Except.ok [n] : Except Nat (List Nat))))
      (some (-1))).result = none := rfl
  have h2 : (promiseEachRun [1] (fun n => ((0 : Nat), (Except.ok [n] : Except Nat (List Nat))))
      (some 1)).result = some (Except.ok [1]) := rfl
  rw [h1, h2] at hcontra
  exact Option.noConfusion hcontra

/-- C8 (amended): an unspecified `maxConcurrent` and the falsy value `0`
behave identically to `maxConcurrent = 1`, but a negative `maxConcurrent`
is kept as supplied, `splice` then removes no elements, and on any
nonempty input the run never settles, whatever recursion depth is
allowed. -/
theorem claim_C8_default {α ε β : Type} :
    (∀ (params : List α) (func : α → AsyncResult ε (List β)),
        promiseEachRun params func none = promiseEachRun params func (some 1)) ∧
      (∀ (params : List α) (func : α → AsyncResult ε (List β)),
        promiseEachRun params func (some 0) = promiseEachRun params func (some 1)) ∧
      ∀ (m : Int), m < 0 → ∀ (fuel : Nat) (params : List α)
        (func : α → AsyncResult ε (List β)), params ≠ [] →
        (promiseEachAux func m fuel params).result = none :=
  ⟨fun _ _ => rfl, fun _ _ => rfl,
    fun m hneg fuel params func hps => promiseEachAux_neg_diverges func m hneg fuel params hps⟩

/-- Witness for C8: at `maxConcurrent = -1`, recursion depth 5, input `[1]`,
the run has not settled. -/
theorem claim_C8_default_witness :
    (-1 : Int) < 0 ∧ ([1] : List Nat) ≠ [] ∧
      (promiseEachAux (fun n => ((0 : Nat), (Except.ok [n] : Except Nat (List Nat)))) (-1)
          5 [1]).result = none :=
  ⟨by norm_num, by simp,
    (claim_C8_default (α := Nat) (ε := Nat) (β := Nat)).2.2 (-1) (by norm_num) 5 [1]
      (fun n => ((0 : Nat), Except.ok [n])) (by simp)⟩

theorem offsetsLoop_eq_range (count : Nat) :
    ∀ (fuel i : Nat), count - i ≤ 36 * fuel →
      offsetsLoop count fuel i =
        (List.range ((count - i + 35) / 36)).map (fun k => i + 36 * k) := by
  intro fuel
  induction fuel with
  | zero =>
    intro i hd
    have h0 : (count - i + 35) / 36 = 0 := by omega
    rw [offsetsLoop, h0]
    rfl
  | succ fuel ih =>
    intro i hd
    by_cases h : i < count
    · rw [offsetsLoop, if_pos h, ih (i + 36) (by omega)]
      have hd36 : (count - i + 35) / 36 = (count - (i + 36) + 35) / 36 + 1 := by omega
      rw [hd36, List.range_succ_eq_map, List.map_cons, List.map_map]
      refine congrArg₂ List.cons (by simp) ?_
      apply List.map_congr_left
      intro k _
      simp [Function.comp]
      omega
    · rw [offsetsLoop, if_neg h]
      have h0 : (count - i + 35) / 36 = 0 := by omega
      rw [h0]
      rfl

/-- C6: for every count, `downloadPackages` generates the ascending offsets
`0, 36, 72, ...`, exactly `⌈count / 36⌉ = (count + 35) / 36` of them — the
least number whose coverage `length * 36` reaches `count` — and in
particular `downloadPackages 50` generates exactly the offsets 0 and 36. -/
theorem claim_C6_page_offsets :
    (∀ count : Nat,
        pageOffsets count = (List.range ((count + 35) / 36)).map (fun k => 36 * k)) ∧
      (∀ count : Nat, (pageOffsets count).length = (count + 35) / 36) ∧
      pageOffsets 50 = [0, 36] := by
  refine ⟨?_, ?_, rfl⟩
  · intro count
    rw [pageOffsets, offsetsLoop_eq_range count count 0 (by omega)]
    simp
  · intro count
    rw [pageOffsets, offsetsLoop_eq_range count count 0 (by omega)]
    simp

/-- C2: whenever the listing stage resolves with the flattened ordered list
`md`, the list handed to the extraction stage is exactly `md` truncated with
`splice(0, count)`: the first `count` entries (all of them if `md` is
shorter), in their original order, with no drops before the truncation
point. -/
theorem claim_C2_truncation {ε γ : Type} (count : Nat)
    (scrape : Nat → AsyncResult ε (List PackageRef))
    (dl : PackageRef → AsyncResult ε (List γ)) (md : List PackageRef)
    (h : (promiseEachRun (pageOffsets count) scrape (some 3)).result = some (Except.ok md)) :
    (downloadPackages count scrape dl).stage2Input = some (md.take count) ∧
      (md.take count).length = min count md.length ∧
      ∀ i (hi : i < (md.take count).length),
        ∃ hj : i < md.length, (md.take count).get ⟨i, hi⟩ = md.get ⟨i, hj⟩ := by
  refine ⟨?_, by simp [List.length_take], ?_⟩
  · simp only [downloadPackages, h]
    cases hr : (promiseEachRun (md.take count) dl (some 3)).result with
    | none => rfl
    | some r =>
      cases r with
      | error e => rfl
      | ok rs => rfl
  · intro i hi
    have hj : i < md.length := by
      simp only [List.length_take] at hi
      omega
    exact ⟨hj, by simp [List.getElem_take]⟩

/-- Witness for C2: requesting one package out of a two-package listing
hands exactly the first listed package to the extraction stage. -/
theorem claim_C2_truncation_witness :
    (promiseEachRun (pageOffsets 1) sampleScrape (some 3)).result =
        some (Except.ok [(jstr "a", jstr "1"), (jstr "b", jstr "2")]) ∧
      (downloadPackages 1 sampleScrape sampleDl).stage2Input =
        some [(jstr "a", jstr "1")] :=
  ⟨rfl,
    (claim_C2_truncation 1 sampleScrape sampleDl
      [(jstr "a", jstr "1"), (jstr "b", jstr "2")] rfl).1⟩

/-- C4: the archive URL of `downloadAndExtractPackage`: when `pkg` starts
with `@` and its first `/` sits at index `i`, the org is the prefix through
that slash and the name the remainder; otherwise org is empty and the name
is `pkg` itself; the two concrete examples of the spec evaluate as
claimed. -/
theorem claim_C4_url_resolution :
    (∀ (pkg version : JsStr) (i : Nat), startsWithL (jstr "@") pkg = true →
        jsIndexOf pkg '/' = (i : Int) →
        downloadAndExtractUrl pkg version =
          jstr "https://registry.npmjs.org/" ++ pkg.take (i + 1) ++ pkg.drop (i + 1) ++
            jstr "/-/" ++ pkg.drop (i + 1) ++ jstr "-" ++ version ++ jstr ".tgz") ∧
      (∀ pkg version : JsStr, startsWithL (jstr "@") pkg = false →
        downloadAndExtractUrl pkg version =
          jstr "https://registry.npmjs.org/" ++ pkg ++ jstr "/-/" ++ pkg ++ jstr "-" ++
            version ++ jstr ".tgz") ∧
      downloadAndExtractUrl (jstr "@scope/name") (jstr "1.2.3") =
        jstr "https://registry.npmjs.org/@scope/name/-/name-1.2.3.tgz" ∧
      downloadAndExtractUrl (jstr "lodash") (jstr "4.17.0") =
        jstr "https://registry.npmjs.org/lodash/-/lodash-4.17.0.tgz" := by
  refine ⟨?_, ?_, rfl, rfl⟩
  · intro pkg version i h1 h2
    have ht : (jsIndexOf pkg '/' + 1).toNat = i + 1 := by rw [h2]; omega
    simp only [downloadAndExtractUrl, h1, if_true, ht]
  · intro pkg version h
    simp only [downloadAndExtractUrl, h, Bool.false_eq_true, if_false]
    simp [jstr]

/-- Witness for C4: the scoped package `@scope/name`, whose first slash is
at index 6, resolves to the claimed URL. -/
theorem claim_C4_url_resolution_witness :
    startsWithL (jstr "@") (jstr "@scope/name") = true ∧
      jsIndexOf (jstr "@scope/name") '/' = (6 : Int) ∧
      downloadAndExtractUrl (jstr "@scope/name") (jstr "1.2.3") =
        jstr "https://registry.npmjs.org/" ++ (jstr "@scope/name").take 7 ++
          (jstr "@scope/name").drop 7 ++ jstr "/-/" ++ (jstr "@scope/name").drop 7 ++
          jstr "-" ++ jstr "1.2.3" ++ jstr ".tgz" :=
  ⟨rfl, rfl, claim_C4_url_resolution.1 (jstr "@scope/name") (jstr "1.2.3") 6 rfl rfl⟩

theorem startsWithL_append_self : ∀ p r : JsStr, startsWithL p (p ++ r) = true := by
  intro p r
  induction p with
  | nil => rfl
  | cons c cs ih => simp [startsWithL, ih]

/-- C5: every archive entry whose name begins with the wrapper text
`package` has that leading text replaced by `encodeURIComponent pkg`; for
the package `@scope/name`, the entry `package/lib/index.js` lands at
`%40scope%2Fname/lib/index.js` under the `./packages` root, and no mapped
entry name ever begins with `package`, so nothing is written into a literal
`./packages/package` subdirectory. -/
theorem claim_C5_entry_remap :
    (∀ pkg rest : JsStr,
        entryDest pkg (jstr "package" ++ rest) = encodeURIComponent pkg ++ rest) ∧
      entryDest (jstr "@scope/name") (jstr "package/lib/index.js") =
        jstr "%40scope%2Fname/lib/index.js" ∧
      ∀ e : JsStr, startsWithL (jstr "package") (entryDest (jstr "@scope/name") e) = false := by
  refine ⟨?_, rfl, ?_⟩
  · intro pkg rest
    simp only [entryDest, tarMapName, jsReplaceAnchored, startsWithL_append_self, if_true]
    congr 1
  · intro e
    by_cases h : startsWithL (jstr "package") e = true
    · simp only [entryDest, tarMapName, jsReplaceAnchored, h, if_true]
      rfl
    · have hf : startsWithL (jstr "package") e = false := by
        rwa [Bool.not_eq_true] at h
      simp only [entryDest, tarMapName, jsReplaceAnchored, hf, Bool.false_eq_true, if_false]

/-- C9 (evaluation at the failing input): a 404 on the archive fetch for
`lodash@4.17.0` rejects with the message `GET undefinedundefined returned
404` — `httpsGetAsync` is handed the URL as a plain string, so
`options.hostname` and `options.path` are both `undefined` — even though
the resolved URL does carry the registry host and the tarball path; the
listing fetch, which passes a real options object, does name host, path and
status in its error. -/
theorem claim_C9_fetch_error_message :
    archiveFetch (jstr "lodash") (jstr "4.17.0") 404 =
        Except.error (jstr "GET undefinedundefined returned 404") ∧
      httpsGetAsync (scrapeOptions 0) 404 =
        Except.error (jstr "GET www.npmjs.com/browse/depended?offset=0 returned 404") ∧
      downloadAndExtractUrl (jstr "lodash") (jstr "4.17.0") =
        jstr "https://registry.npmjs.org/lodash/-/lodash-4.17.0.tgz" :=
  ⟨rfl, rfl, rfl⟩

theorem le_foldr_max {α : Type} (f : α → Nat) :
    ∀ (l : List α), ∀ a ∈ l, f a ≤ (l.map f).foldr Nat.max 0 := by
  intro l
  induction l with
  | nil => intro a ha; simp at ha
  | cons b l ih =>
    intro a ha
    simp only [List.map_cons, List.foldr_cons]
    rcases List.mem_cons.mp ha with h | h
    · rw [h]; exact Nat.le_max_left _ _
    · exact le_trans (ih a h) (Nat.le_max_right _ _)

theorem chunkSpansAux_start_le {α : Type} (lat : α → Nat) (m : Nat) :
    ∀ (fuel : Nat) (ps : List α) (t : Nat) (c : List (Nat × Nat)),
      c ∈ chunkSpansAux lat m fuel ps t → ∀ s ∈ c, t ≤ s.1 := by
  intro fuel
  induction fuel with
  | zero => intro ps t c hc; simp [chunkSpansAux] at hc
  | succ fuel ih =>
    intro ps t c hc s hs
    by_cases hps : ps.isEmpty = true
    · simp [chunkSpansAux, hps] at hc
    · have hpsf : ps.isEmpty = false := by rwa [Bool.not_eq_true] at hps
      simp only [chunkSpansAux, hpsf, Bool.false_eq_true, if_false] at hc
      rcases List.mem_cons.mp hc with h | h
      · rw [h] at hs
        obtain ⟨a, _, rfl⟩ := List.mem_map.mp hs
        exact le_refl t
      · have := ih (ps.drop m) (t + ((ps.take m).map lat).foldr Nat.max 0) c h s hs
        omega

theorem chunkSpansAux_pending_le {α : Type} (lat : α → Nat) (m : Nat) :
    ∀ (fuel : Nat) (ps : List α) (t t' : Nat),
      countPending ((chunkSpansAux lat m fuel ps t).flatten) t' ≤ m := by
  intro fuel
  induction fuel with
  | zero => intro ps t t'; simp [chunkSpansAux, countPending]
  | succ fuel ih =>
    intro ps t t'
    by_cases hps : ps.isEmpty = true
    · simp [chunkSpansAux, hps, countPending]
    · have hpsf : ps.isEmpty = false := by rwa [Bool.not_eq_true] at hps
      simp only [chunkSpansAux, hpsf, Bool.false_eq_true, if_false, List.flatten_cons]
      rw [countPending, List.countP_append]
      by_cases ht : t' < t + ((ps.take m).map lat).foldr Nat.max 0
      · have htail : List.countP (fun s => decide (s.1 ≤ t' ∧ t' < s.2))
            ((chunkSpansAux lat m fuel (ps.drop m)
              (t + ((ps.take m).map lat).foldr Nat.max 0)).flatten) = 0 := by
          rw [List.countP_eq_zero]
          intro s hsmem
          obtain ⟨c, hcmem, hsc⟩ := List.mem_flatten.mp hsmem
          have hstart := chunkSpansAux_start_le lat m fuel (ps.drop m)
            (t + ((ps.take m).map lat).foldr Nat.max 0) c hcmem s hsc
          simp only [decide_eq_true_eq]
          intro hcontra
          omega
        rw [htail, Nat.add_zero]
        calc List.countP (fun s => decide (s.1 ≤ t' ∧ t' < s.2))
              ((ps.take m).map fun a => (t, t + lat a))
            ≤ ((ps.take m).map fun a => (t, t + lat a)).length := List.countP_le_length _
          _ = (ps.take m).length := List.length_map _ _
          _ ≤ m := by simp [List.length_take]
      · have hhead : List.countP (fun s => decide (s.1 ≤ t' ∧ t' < s.2))
            ((ps.take m).map fun a => (t, t + lat a)) = 0 := by
          rw [List.countP_eq_zero]
          intro s hsmem
          obtain ⟨a, hamem, rfl⟩ := List.mem_map.mp hsmem
          simp only [decide_eq_true_eq]
          intro hcontra
          have hla : lat a ≤ ((ps.take m).map lat).foldr Nat.max 0 :=
            le_foldr_max lat (ps.take m) a hamem
          omega
        rw [hhead, Nat.zero_add]
        exact ih (ps.drop m) (t + ((ps.take m).map lat).foldr Nat.max 0) t'

theorem chunkSpansAux_pairwise {α : Type} (lat : α → Nat) (m : Nat) :
    ∀ (fuel : Nat) (ps : List α) (t : Nat),
      List.Pairwise spansSequenced (chunkSpansAux lat m fuel ps t) := by
  intro fuel
  induction fuel with
  | zero => intro ps t; simp [chunkSpansAux]
  | succ fuel ih =>
    intro ps t
    by_cases hps : ps.isEmpty = true
    · simp [chunkSpansAux, hps]
    · have hpsf : ps.isEmpty = false := by rwa [Bool.not_eq_true] at hps
      simp only [chunkSpansAux, hpsf, Bool.false_eq_true, if_false]
      refine List.Pairwise.cons ?_ (ih (ps.drop m) _)
      intro d hd p hp q hq
      obtain ⟨a, hamem, rfl⟩ := List.mem_map.mp hp
      have hq1 := chunkSpansAux_start_le lat m fuel (ps.drop m)
        (t + ((ps.take m).map lat).foldr Nat.max 0) d hd q hq
      have hla : lat a ≤ ((ps.take m).map lat).foldr Nat.max 0 :=
        le_foldr_max lat (ps.take m) a hamem
      simp only []
      omega

/-- C7: in the timing model of a `promiseEach` run with limit `m ≥ 1` —
every call of a chunk pending from the chunk's start until its own
completion, the chunk settling with its slowest call — at most `m` calls
are pending at any instant, and every call of a chunk finishes before any
call of any later chunk starts (chunks are joined all-or-nothing, chunk
N+1 never starts before chunk N has settled). -/
theorem claim_C7_bounded_concurrency {α : Type} (m : Nat) (hm : 1 ≤ m) (params : List α)
    (lat : α → Nat) (t₀ : Nat) :
    (∀ t, countPending ((chunkSpans lat m params t₀).flatten) t ≤ m) ∧
      List.Pairwise spansSequenced (chunkSpans lat m params t₀) :=
  ⟨fun t => chunkSpansAux_pending_le lat m _ params t₀ t,
    chunkSpansAux_pairwise lat m _ params t₀⟩

/-- Witness for C7: five calls with assorted latencies at limit 2: at
instant 3 at most two calls are pending, and the three chunks are fully
sequenced. -/
theorem claim_C7_bounded_concurrency_witness :
    1 ≤ 2 ∧
      countPending ((chunkSpans (fun n : Nat => n) 2 [3, 1, 4, 1, 5] 0).flatten) 3 ≤ 2 ∧
      List.Pairwise spansSequenced (chunkSpans (fun n : Nat => n) 2 [3, 1, 4, 1, 5] 0) :=
  ⟨by norm_num,
    (claim_C7_bounded_concurrency 2 (by norm_num) [3, 1, 4, 1, 5] (fun n => n) 0).1 3,
    (claim_C7_bounded_concurrency 2 (by norm_num) [3, 1, 4, 1, 5] (fun n => n) 0).2⟩
